import Mathlib

/-!
Verification of the fastant high-performance clock library.

The repository sources under verification are `src/lib.rs` (strategy dispatch,
availability flag, the coarse fallback reader and the nanos-per-cycle accessor)
together with the spec of the `instant` and `tsc_now` modules (whose code is not
part of the provided sources and is therefore modelled from the spec, as marked
on each such definition).

Machine floats (`f64`) are modelled as rationals; `u64` values as naturals with
explicit reduction modulo `2 ^ 64` where the code truncates.
-/

namespace Fastant

/-- An Instant wraps one CycleValue: an unsigned counter reading. -/
structure Instant where
  cycles : ℕ
deriving Repr, DecidableEq

/-- An Anchor wraps one (CycleValue, wall-clock unix nanoseconds) pair captured
back-to-back at construction. -/
structure Anchor where
  cycles : ℕ
  wall_ns : ℕ
deriving Repr, DecidableEq

/-- Modelled from the spec (the `tsc_now` module is not among the sources): the
process-global TSC state produced by the one-shot calibration — the Availability
flag and the calibrated nanoseconds-per-cycle factor. On calibration failure the
conversion factor is fixed to the identity ratio 1 (spec §4.2 step 7). -/
structure TscState where
  available : Bool
  factor : ℚ
deriving Repr, DecidableEq

/-- Modelled from the spec: `tsc_now::nanos_per_cycle` — the calibrated factor when
calibration succeeded, the identity ratio 1 otherwise. -/
def TscState.nanos_per_cycle (s : TscState) : ℚ :=
  if s.available then s.factor else 1

/-- The per-process, fixed-at-startup configuration: whether the build target is
Linux on x86/x86_64 (the cfg guard in lib.rs) and the calibrated TSC state. -/
structure Process where
  linuxX86 : Bool
  tsc : TscState
deriving Repr, DecidableEq

/-- lib.rs `is_tsc_available`: on Linux x86/x86_64 it delegates to
`tsc_now::is_tsc_available`; on every other platform it is `false`. -/
def is_tsc_available (p : Process) : Bool :=
  if p.linuxX86 then p.tsc.available else false

/-- lib.rs `nanos_per_cycle`: on Linux x86/x86_64 it delegates to
`tsc_now::nanos_per_cycle`; on every other platform it is `1.0`. -/
def nanos_per_cycle (p : Process) : ℚ :=
  if p.linuxX86 then p.tsc.nanos_per_cycle else 1

/-- The two counter-reading strategies of the Cycle Source. -/
inductive Strategy where
  | tsc
  | fallback
deriving Repr, DecidableEq

/-- lib.rs `current_cycle`, strategy part: the hardware TSC is read exactly when the
platform is Linux x86/x86_64 and `tsc_now::is_tsc_available()` holds; every other
case routes through `current_cycle_fallback`. -/
def current_cycle_strategy (p : Process) : Strategy :=
  if p.linuxX86 then
    (if p.tsc.available then Strategy.tsc else Strategy.fallback)
  else Strategy.fallback

/-- `SystemTime::now().duration_since(UNIX_EPOCH)` as used by the fallback: the
wall clock is a signed count of nanoseconds relative to the unix epoch, and the
call fails exactly when the clock reads earlier than the epoch. -/
def duration_since_epoch (wall_ns : ℤ) : Except Unit ℕ :=
  if 0 ≤ wall_ns then Except.ok wall_ns.toNat else Except.error ()

/-- lib.rs `current_cycle_fallback` (default feature set):
`SystemTime::now().duration_since(UNIX_EPOCH).map(|d| d.as_nanos() as u64).unwrap_or(0)`.
The `as u64` cast truncates the `u128` nanosecond count modulo `2 ^ 64`. -/
def current_cycle_fallback (wall_ns : ℤ) : ℕ :=
  match duration_since_epoch wall_ns with
  | Except.ok d => d % 2 ^ 64
  | Except.error _ => 0

/-- The per-call environment of one `current_cycle` invocation: the raw TSC register
value and the wall clock's signed offset from the unix epoch at that moment. -/
structure Env where
  tscReading : ℕ
  wall_ns : ℤ
deriving Repr, DecidableEq

/-- lib.rs `current_cycle`: read the TSC when available, otherwise the fallback. -/
def current_cycle (p : Process) (e : Env) : ℕ :=
  match current_cycle_strategy p with
  | Strategy.tsc => e.tscReading
  | Strategy.fallback => current_cycle_fallback e.wall_ns

/-- Modelled from the spec (the `tsc_now` module is not among the sources): the
Availability flag is computed on the first evaluation and cached for the process
lifetime; a call returns the cached value when present, and otherwise computes,
caches and returns it. -/
def isTscAvailableCall (compute : Bool) : Option Bool → Bool × Option Bool
  | none => (compute, some compute)
  | some v => (v, some v)

/-- The results of n successive availability queries within one process run,
threading the process-global cache from call to call. -/
def isTscAvailableCalls (compute : Bool) : ℕ → Option Bool → List Bool
  | 0, _ => []
  | n + 1, cache =>
    (isTscAvailableCall compute cache).1
      :: isTscAvailableCalls compute n (isTscAvailableCall compute cache).2

/-- Boolean check that a list of readings is non-decreasing. -/
def nondecr {α : Type} [LE α] [DecidableRel ((· ≤ ·) : α → α → Prop)] :
    List α → Bool
  | [] => true
  | [_] => true
  | a :: b :: rest => decide (a ≤ b) && nondecr (b :: rest)

/-- The sequence of values returned by successive `current_cycle` calls, one per
per-call environment. -/
def current_cycle_trace (p : Process) (es : List Env) : List ℕ :=
  es.map (current_cycle p)

/-- Modelled from the spec (the `instant` module is not among the sources):
`Instant::now()` stores the raw Cycle Source reading. -/
def Instant.now (reading : ℕ) : Instant :=
  ⟨reading⟩

/-- Modelled from the spec (the `instant` module is not among the sources):
`duration_since(earlier)` converts the signed cycle delta `self.cycles - earlier.cycles`
to nanoseconds via the ConversionFactor, clamped to zero on a negative delta. -/
def Instant.duration_since (cf : ℚ) (self earlier : Instant) : ℕ :=
  (⌊(((self.cycles : ℤ) - (earlier.cycles : ℤ)) : ℚ) * cf⌋).toNat

/-- Modelled from the spec (the `instant` module is not among the sources):
`elapsed()` is `now().cycles - self.cycles` converted via the ConversionFactor,
clamped to zero on a negative delta; `now()` is the fresh Cycle Source reading. -/
def Instant.elapsed (cf : ℚ) (nowReading : ℕ) (self : Instant) : ℕ :=
  (⌊(((nowReading : ℤ) - (self.cycles : ℤ)) : ℚ) * cf⌋).toNat

/-- Modelled from the spec (the `instant` module is not among the sources):
`as_unix_nanos(anchor)` — the spec's `Anchor.project` — computes
`anchor.wall_ns + (instant.cycles - anchor.cycles) * ConversionFactor`,
saturating at zero if the result would be negative, as unsigned unix nanoseconds. -/
def Instant.as_unix_nanos (cf : ℚ) (self : Instant) (anchor : Anchor) : ℕ :=
  (⌊(anchor.wall_ns : ℚ) + (((self.cycles : ℤ) - (anchor.cycles : ℤ)) : ℚ) * cf⌋).toNat

/-- Events of a concurrent calibration history: a thread attempts to claim the
one-shot calibration, a thread finishes its calibration run, or a thread reads the
published global state. -/
inductive CalibEvent where
  | begin (tid : ℕ)
  | finish (tid : ℕ)
  | read (tid : ℕ)
deriving Repr, DecidableEq

/-- State of the process-global one-shot barrier guarding calibration. -/
inductive OnceState where
  | uninit
  | running (tid : ℕ)
  | done (avail : Bool) (factor : ℚ)
deriving Repr, DecidableEq

/-- Modelled from the spec (§4.2, §5, §9 — the calibration code in `tsc_now` and its
startup hook are not among the sources): the one-shot barrier. A begin event claims
the run only from the unclaimed state; the finish event of the claiming thread
publishes that thread's calibration result (an Availability flag and conversion
factor); every other event leaves the state unchanged, so a published result is
never overwritten. `calib t` is the result thread t's calibration run would
produce. -/
def onceStep (calib : ℕ → Bool × ℚ) : OnceState → CalibEvent → OnceState
  | OnceState.uninit, CalibEvent.begin t => OnceState.running t
  | OnceState.running t, CalibEvent.finish u =>
    if u = t then OnceState.done (calib t).1 (calib t).2 else OnceState.running t
  | s, _ => s

/-- What a read observes: the published calibration result once the one-shot run
has completed, and nothing before. -/
def onceRead : OnceState → Option (Bool × ℚ)
  | OnceState.done a f => some (a, f)
  | _ => none

/-- Run a history of events from a given barrier state. -/
def onceRunFrom (calib : ℕ → Bool × ℚ) : OnceState → List CalibEvent → OnceState
  | s, [] => s
  | s, e :: evs => onceRunFrom calib (onceStep calib s e) evs

/-- Run a history of events from process start. -/
def onceRun (calib : ℕ → Bool × ℚ) (evs : List CalibEvent) : OnceState :=
  onceRunFrom calib OnceState.uninit evs

/-- The thread whose begin event claims the calibration run: the first to race in. -/
def winner : List CalibEvent → Option ℕ
  | [] => none
  | CalibEvent.begin t :: _ => some t
  | _ :: evs => winner evs

/-- Operations on the atomic cell. -/
inductive AtomicOp where
  | store (v : ℕ)
  | swap (v : ℕ)
  | load
deriving Repr, DecidableEq

/-- Modelled from the spec (the `instant` module is not among the sources): the
Atomic container holds one CycleValue in a single machine word; store, load and
swap each take effect as one indivisible step on that word, returning the old word
for swap and the current word for load. A concurrent history is an arbitrary
interleaving of such steps. -/
def atomicStep (s : ℕ) : AtomicOp → ℕ × Option ℕ
  | AtomicOp.store v => (v, none)
  | AtomicOp.swap v => (v, some s)
  | AtomicOp.load => (s, some s)

/-- The outputs of an interleaved operation history starting from word value s. -/
def atomicOutputs (s : ℕ) : List AtomicOp → List (Option ℕ)
  | [] => []
  | op :: ops => (atomicStep s op).2 :: atomicOutputs (atomicStep s op).1 ops

/-- The values passed to store or swap operations, in history order. -/
def writtenValues : List AtomicOp → List ℕ
  | [] => []
  | AtomicOp.store v :: ops => v :: writtenValues ops
  | AtomicOp.swap v :: ops => v :: writtenValues ops
  | AtomicOp.load :: ops => writtenValues ops

end Fastant

namespace Fastant

/-- C1: `Anchor.project` (realised as `Instant.as_unix_nanos`) returns
`anchor.wall_ns + (instant.cycles - anchor.cycles) * ConversionFactor` saturated at
zero — exactly the nonnegative part of that expression — so it is always ≥ 0. -/
theorem as_unix_nanos_saturating (cf : ℚ) (i : Instant) (a : Anchor) :
    (Instant.as_unix_nanos cf i a : ℤ)
      = max 0 ⌊(a.wall_ns : ℚ) + (((i.cycles : ℤ) - (a.cycles : ℤ)) : ℚ) * cf⌋
    ∧ 0 ≤ (Instant.as_unix_nanos cf i a : ℤ) := by
  constructor
  · rw [Instant.as_unix_nanos, Int.toNat_eq_max, max_comm]
  · exact Int.natCast_nonneg _

/-- C2: `duration_since` and `elapsed` convert the cycle delta via the
ConversionFactor, clamp to zero on a negative delta, and never return a negative
Duration. -/
theorem duration_since_clamped (cf : ℚ) (hcf : 0 < cf) (self earlier : Instant)
    (nowReading : ℕ) :
    (self.cycles < earlier.cycles → Instant.duration_since cf self earlier = 0)
    ∧ (earlier.cycles ≤ self.cycles →
        (Instant.duration_since cf self earlier : ℤ)
          = ⌊((self.cycles - earlier.cycles : ℕ) : ℚ) * cf⌋)
    ∧ 0 ≤ (Instant.duration_since cf self earlier : ℤ)
    ∧ (nowReading < self.cycles → Instant.elapsed cf nowReading self = 0)
    ∧ 0 ≤ (Instant.elapsed cf nowReading self : ℤ) := by
  refine ⟨?_, ?_, Int.natCast_nonneg _, ?_, Int.natCast_nonneg _⟩
  · intro hlt
    have hd : (((self.cycles : ℤ) - (earlier.cycles : ℤ)) : ℚ) ≤ 0 := by
      have : (self.cycles : ℤ) - (earlier.cycles : ℤ) ≤ 0 := by omega
      exact_mod_cast this
    have hprod : (((self.cycles : ℤ) - (earlier.cycles : ℤ)) : ℚ) * cf ≤ 0 :=
      mul_nonpos_iff.mpr (Or.inr ⟨hd, hcf.le⟩)
    exact Int.toNat_eq_zero.mpr (Int.floor_nonpos hprod)
  · intro hle
    have hcast : (((self.cycles - earlier.cycles : ℕ)) : ℚ)
        = (((self.cycles : ℤ) - (earlier.cycles : ℤ)) : ℚ) := by
      push_cast [hle]
      ring
    have hnn : (0 : ℚ) ≤ (((self.cycles : ℤ) - (earlier.cycles : ℤ)) : ℚ) * cf := by
      apply mul_nonneg _ hcf.le
      rw [← hcast]
      exact_mod_cast Nat.zero_le _
    rw [Instant.duration_since, Int.toNat_of_nonneg (Int.floor_nonneg.mpr hnn), hcast]
  · intro hlt
    have hd : (((nowReading : ℤ) - (self.cycles : ℤ)) : ℚ) ≤ 0 := by
      have : (nowReading : ℤ) - (self.cycles : ℤ) ≤ 0 := by omega
      exact_mod_cast this
    have hprod : (((nowReading : ℤ) - (self.cycles : ℤ)) : ℚ) * cf ≤ 0 :=
      mul_nonpos_iff.mpr (Or.inr ⟨hd, hcf.le⟩)
    exact Int.toNat_eq_zero.mpr (Int.floor_nonpos hprod)

/-- Witness for C2 at cf = 1, self = ⟨2⟩, earlier = ⟨5⟩, nowReading = 0. -/
theorem duration_since_clamped_witness :
    Instant.duration_since 1 ⟨2⟩ ⟨5⟩ = 0 ∧ Instant.elapsed 1 0 ⟨2⟩ = 0 :=
  ⟨(duration_since_clamped 1 one_pos ⟨2⟩ ⟨5⟩ 0).1 (by norm_num),
   (duration_since_clamped 1 one_pos ⟨2⟩ ⟨5⟩ 0).2.2.2.1 (by norm_num)⟩

/-- C3: `elapsed` is exactly `now().duration_since(self)`: the one-argument form and
the general two-argument form compute the same Duration. -/
theorem elapsed_eq_now_duration_since (cf : ℚ) (reading : ℕ) (self : Instant) :
    Instant.elapsed cf reading self
      = Instant.duration_since cf (Instant.now reading) self := rfl

/-- C4: whenever the Cycle Source is the coarse fallback (platform unsupported or
calibration failed), the process-global nanos-per-cycle factor is exactly 1. -/
theorem fallback_nanos_per_cycle_one (p : Process)
    (h : current_cycle_strategy p = Strategy.fallback) : nanos_per_cycle p = 1 := by
  unfold current_cycle_strategy at h
  unfold nanos_per_cycle TscState.nanos_per_cycle
  by_cases hl : p.linuxX86
  · rw [if_pos hl] at h ⊢
    by_cases ha : p.tsc.available
    · rw [if_pos ha] at h
      exact absurd h (by simp)
    · rw [if_neg ha]
  · rw [if_neg hl]

/-- Witness for C4: a non-Linux-x86 process uses the fallback and has factor 1. -/
theorem fallback_nanos_per_cycle_one_witness :
    nanos_per_cycle ⟨false, ⟨true, 5⟩⟩ = 1 :=
  fallback_nanos_per_cycle_one ⟨false, ⟨true, 5⟩⟩ rfl

/-- C5: the reading comes from the hardware TSC strategy iff `is_tsc_available` is
true; when it is false, every read is routed through the fallback strategy. -/
theorem current_cycle_routing (p : Process) (e : Env) :
    (current_cycle_strategy p = Strategy.tsc ↔ is_tsc_available p = true)
    ∧ (is_tsc_available p = true → current_cycle p e = e.tscReading)
    ∧ (is_tsc_available p = false →
        current_cycle p e = current_cycle_fallback e.wall_ns) := by
  unfold current_cycle current_cycle_strategy is_tsc_available
  by_cases hl : p.linuxX86 <;> by_cases ha : p.tsc.available <;> simp [hl, ha]

/-- Witness for C5: a TSC-available process reads the TSC register; a process
without TSC routes through the fallback. -/
theorem current_cycle_routing_witness :
    current_cycle ⟨true, ⟨true, 2⟩⟩ ⟨42, 7⟩ = 42
    ∧ current_cycle ⟨false, ⟨true, 2⟩⟩ ⟨42, 7⟩ = current_cycle_fallback 7 :=
  ⟨(current_cycle_routing ⟨true, ⟨true, 2⟩⟩ ⟨42, 7⟩).2.1 rfl,
   (current_cycle_routing ⟨false, ⟨true, 2⟩⟩ ⟨42, 7⟩).2.2 rfl⟩

/-- C10: the fallback cycle read is total: it always returns a value below `2 ^ 64`
(a u64), and returns 0 — rather than propagating the error — when the system clock
reads earlier than the unix epoch. -/
theorem current_cycle_fallback_total (wall_ns : ℤ) :
    current_cycle_fallback wall_ns < 2 ^ 64
    ∧ (duration_since_epoch wall_ns = Except.error () →
        current_cycle_fallback wall_ns = 0)
    ∧ (wall_ns < 0 → current_cycle_fallback wall_ns = 0) := by
  unfold current_cycle_fallback duration_since_epoch
  by_cases h : 0 ≤ wall_ns
  · rw [if_pos h]
    refine ⟨Nat.mod_lt _ (by norm_num), ?_, ?_⟩
    · intro hc
      exact absurd hc (by simp)
    · intro hneg
      omega
  · rw [if_neg h]
    exact ⟨by norm_num, fun _ => rfl, fun _ => rfl⟩

/-- Witness for C10 at a pre-epoch clock reading. -/
theorem current_cycle_fallback_total_witness :
    current_cycle_fallback (-1) = 0 ∧ current_cycle_fallback (-1) < 2 ^ 64 :=
  ⟨(current_cycle_fallback_total (-1)).2.2 (by norm_num),
   (current_cycle_fallback_total (-1)).1⟩

/-- From a filled cache, every availability query returns the cached value,
whatever a fresh computation would return. -/
theorem isTscAvailableCalls_cached (compute v : Bool) :
    ∀ n : ℕ, isTscAvailableCalls compute n (some v) = List.replicate n v
  | 0 => rfl
  | n + 1 => by
    rw [isTscAvailableCalls, List.replicate]
    exact congrArg (v :: ·) (isTscAvailableCalls_cached compute v n)

/-- C6: `is_tsc_available` is idempotent within one process run — starting from the
empty cache, all n calls return the value fixed by the first evaluation. -/
theorem is_tsc_available_idempotent (compute : Bool) (n : ℕ) :
    isTscAvailableCalls compute n none = List.replicate n compute := by
  cases n with
  | zero => rfl
  | succ m =>
    rw [isTscAvailableCalls, List.replicate]
    exact congrArg (compute :: ·) (isTscAvailableCalls_cached compute compute m)

/-- The fallback reading is monotone as long as the wall clock does not step
backwards and stays within the u64 range. -/
theorem current_cycle_fallback_mono {a b : ℤ} (hab : a ≤ b) (hb : b < 2 ^ 64) :
    current_cycle_fallback a ≤ current_cycle_fallback b := by
  unfold current_cycle_fallback duration_since_epoch
  by_cases ha : 0 ≤ a
  · rw [if_pos ha, if_pos (le_trans ha hab)]
    show a.toNat % 2 ^ 64 ≤ b.toNat % 2 ^ 64
    have ha64 : a.toNat < 2 ^ 64 := by omega
    have hb64 : b.toNat < 2 ^ 64 := by omega
    rw [Nat.mod_eq_of_lt ha64, Nat.mod_eq_of_lt hb64]
    omega
  · rw [if_neg ha]
    exact Nat.zero_le _

/-- Mapping the fallback reader over a non-decreasing, in-range wall-clock trace
yields a non-decreasing trace of readings. -/
theorem nondecr_map_fallback :
    ∀ ws : List ℤ, nondecr ws = true → (∀ w ∈ ws, w < 2 ^ 64) →
      nondecr (ws.map current_cycle_fallback) = true
  | [], _, _ => rfl
  | [_], _, _ => rfl
  | a :: b :: rest, h, hlt => by
    simp only [nondecr, List.map_cons, Bool.and_eq_true, decide_eq_true_eq] at h ⊢
    obtain ⟨hab, hrest⟩ := h
    refine ⟨current_cycle_fallback_mono hab (hlt b (by simp)), ?_⟩
    have hrec := nondecr_map_fallback (b :: rest)
      (by simpa [nondecr, Bool.and_eq_true] using hrest)
      (fun w hw => hlt w (by simp at hw ⊢; tauto))
    simpa [nondecr, List.map_cons, Bool.and_eq_true] using hrec

/-- C7 (counterexample to the claim as stated): under the fallback strategy the
Cycle Source reads the system wall clock, which the code does not clamp; with
successive wall readings 5 ns then 3 ns the returned sequence decreases. -/
theorem now_monotone_counterexample :
    current_cycle_strategy ⟨false, ⟨false, 1⟩⟩ = Strategy.fallback
    ∧ nondecr (current_cycle_trace ⟨false, ⟨false, 1⟩⟩
        [⟨0, 5⟩, ⟨0, 3⟩]) = false := by
  constructor
  · rfl
  · decide

/-- C7 (amended): N successive `current_cycle` readings are non-decreasing provided
the selected strategy's underlying source is itself non-decreasing over the trace —
per-core monotone TSC readings for the hardware strategy; a non-backward-stepping,
in-u64-range wall clock for the fallback strategy. -/
theorem now_monotone_of_source_monotone (p : Process) (es : List Env) :
    (current_cycle_strategy p = Strategy.tsc →
      nondecr (es.map Env.tscReading) = true →
      nondecr (current_cycle_trace p es) = true)
    ∧ (current_cycle_strategy p = Strategy.fallback →
      nondecr (es.map Env.wall_ns) = true →
      (∀ e ∈ es, e.wall_ns < 2 ^ 64) →
      nondecr (current_cycle_trace p es) = true) := by
  constructor
  · intro hs hmono
    have htr : current_cycle_trace p es = es.map Env.tscReading := by
      unfold current_cycle_trace
      apply List.map_congr_left
      intro e _
      unfold current_cycle
      rw [hs]
    rw [htr]
    exact hmono
  · intro hs hmono hlt
    have htr : current_cycle_trace p es
        = (es.map Env.wall_ns).map current_cycle_fallback := by
      unfold current_cycle_trace
      rw [List.map_map]
      apply List.map_congr_left
      intro e _
      unfold current_cycle
      rw [hs]
      rfl
    rw [htr]
    exact nondecr_map_fallback (es.map Env.wall_ns) hmono
      (fun w hw => by
        obtain ⟨e, he, rfl⟩ := List.mem_map.mp hw
        exact hlt e he)

/-- Witness for the amended C7 on both strategies at concrete monotone traces. -/
theorem now_monotone_of_source_monotone_witness :
    nondecr (current_cycle_trace ⟨true, ⟨true, 1⟩⟩ [⟨3, 0⟩, ⟨5, 0⟩]) = true
    ∧ nondecr (current_cycle_trace ⟨false, ⟨false, 1⟩⟩ [⟨0, 3⟩, ⟨0, 5⟩]) = true :=
  ⟨(now_monotone_of_source_monotone ⟨true, ⟨true, 1⟩⟩ [⟨3, 0⟩, ⟨5, 0⟩]).1
      rfl (by decide),
   (now_monotone_of_source_monotone ⟨false, ⟨false, 1⟩⟩ [⟨0, 3⟩, ⟨0, 5⟩]).2
      rfl (by decide) (by decide)⟩

/-- A published calibration result is absorbing: no later event changes it. -/
theorem onceRunFrom_done (calib : ℕ → Bool × ℚ) (a : Bool) (f : ℚ) :
    ∀ evs : List CalibEvent,
      onceRunFrom calib (OnceState.done a f) evs = OnceState.done a f
  | [] => rfl
  | e :: evs => by
    have hstep : onceStep calib (OnceState.done a f) e = OnceState.done a f := by
      cases e <;> rfl
    rw [onceRunFrom, hstep]
    exact onceRunFrom_done calib a f evs

/-- From a claimed barrier, the history either stays claimed by the same thread or
publishes exactly that thread's calibration result. -/
theorem onceRunFrom_running (calib : ℕ → Bool × ℚ) (t : ℕ) :
    ∀ evs : List CalibEvent,
      onceRunFrom calib (OnceState.running t) evs = OnceState.running t
      ∨ onceRunFrom calib (OnceState.running t) evs
          = OnceState.done (calib t).1 (calib t).2
  | [] => Or.inl rfl
  | CalibEvent.begin u :: evs => by
    rw [onceRunFrom]
    exact onceRunFrom_running calib t evs
  | CalibEvent.read u :: evs => by
    rw [onceRunFrom]
    exact onceRunFrom_running calib t evs
  | CalibEvent.finish u :: evs => by
    rw [onceRunFrom]
    have hstep : onceStep calib (OnceState.running t) (CalibEvent.finish u)
        = if u = t then OnceState.done (calib t).1 (calib t).2
          else OnceState.running t := rfl
    rw [hstep]
    by_cases hu : u = t
    · rw [if_pos hu]
      exact Or.inr (onceRunFrom_done calib _ _ evs)
    · rw [if_neg hu]
      exact onceRunFrom_running calib t evs

/-- A full history from process start is determined by the winning begin event: with
no begin the barrier stays unclaimed, and with first begin by thread t the state is
either still running t or holds exactly t's published result. -/
theorem onceRun_winner (calib : ℕ → Bool × ℚ) :
    ∀ evs : List CalibEvent,
      (winner evs = none → onceRun calib evs = OnceState.uninit)
      ∧ (∀ t, winner evs = some t →
          onceRun calib evs = OnceState.running t
          ∨ onceRun calib evs = OnceState.done (calib t).1 (calib t).2)
  | [] => ⟨fun _ => rfl, fun t ht => by cases ht⟩
  | CalibEvent.begin u :: evs => by
    constructor
    · intro hn
      cases hn
    · intro t ht
      have hut : u = t := by
        rw [winner] at ht
        exact Option.some.inj ht
      subst hut
      exact onceRunFrom_running calib u evs
  | CalibEvent.finish u :: evs => onceRun_winner calib evs
  | CalibEvent.read u :: evs => onceRun_winner calib evs

/-- C8: if a concurrent history publishes a calibration result, that result is the
one produced by the single thread whose begin claimed the run (only one calibration
takes effect); the published ConversionFactor and Availability are write-once (no
continuation of the history changes them); and every subsequent read observes the
same consistent pair. -/
theorem calibration_once (calib : ℕ → Bool × ℚ) (evs : List CalibEvent)
    (a : Bool) (f : ℚ) (h : onceRun calib evs = OnceState.done a f) :
    (∃ t, winner evs = some t ∧ a = (calib t).1 ∧ f = (calib t).2)
    ∧ (∀ more, onceRunFrom calib (OnceState.done a f) more = OnceState.done a f)
    ∧ (∀ more, onceRead (onceRunFrom calib (OnceState.done a f) more)
        = some (a, f)) := by
  refine ⟨?_, onceRunFrom_done calib a f, fun more => ?_⟩
  · match hw : winner evs with
    | none =>
      have := (onceRun_winner calib evs).1 hw
      rw [this] at h
      cases h
    | some t =>
      rcases (onceRun_winner calib evs).2 t hw with hr | hr
      · rw [hr] at h
        cases h
      · rw [hr] at h
        injection h with h1 h2
        exact ⟨t, rfl, h1.symm, h2.symm⟩
  · rw [onceRunFrom_done calib a f more]
    rfl

/-- Witness for C8: after thread 0 wins the race and publishes, a later read by
another thread observes the published pair. -/
theorem calibration_once_witness :
    onceRead (onceRunFrom (fun _ => (true, 2)) (OnceState.done true 2)
        [CalibEvent.read 1]) = some (true, 2) :=
  (calibration_once (fun _ => (true, 2)) [CalibEvent.begin 0, CalibEvent.finish 0]
      true 2 rfl).2.2 [CalibEvent.read 1]

/-- The length of the output history equals the length of the operation history:
every operation completes in exactly one step. -/
theorem atomicOutputs_length (s : ℕ) :
    ∀ ops : List AtomicOp, (atomicOutputs s ops).length = ops.length
  | [] => rfl
  | op :: ops => by
    rw [atomicOutputs, List.length_cons, List.length_cons]
    exact congrArg (· + 1) (atomicOutputs_length _ ops)

/-- Every value output by a history starting at word value s is s itself or a value
written by a strictly earlier store or swap in that history. -/
theorem atomicOutputs_sound (v : ℕ) :
    ∀ (ops : List AtomicOp) (s i : ℕ),
      (atomicOutputs s ops)[i]? = some (some v) →
      v = s ∨ v ∈ writtenValues (ops.take i)
  | [], s, i, h => by cases h
  | op :: ops, s, 0, h => by
    rw [atomicOutputs] at h
    simp only [List.getElem?_cons_zero, Option.some.injEq] at h
    cases op with
    | store w => cases h
    | swap w =>
      left
      exact (Option.some.inj h).symm
    | load =>
      left
      exact (Option.some.inj h).symm
  | op :: ops, s, i + 1, h => by
    rw [atomicOutputs] at h
    simp only [List.getElem?_cons_succ] at h
    have ih := atomicOutputs_sound v ops (atomicStep s op).1 i h
    cases op with
    | store w =>
      right
      rw [List.take_succ_cons, writtenValues]
      rcases ih with hv | hv
      · rw [hv]
        exact List.mem_cons_self _ _
      · exact List.mem_cons_of_mem w hv
    | swap w =>
      right
      rw [List.take_succ_cons, writtenValues]
      rcases ih with hv | hv
      · rw [hv]
        exact List.mem_cons_self _ _
      · exact List.mem_cons_of_mem w hv
    | load =>
      rcases ih with hv | hv
      · left
        exact hv
      · right
        rw [List.take_succ_cons, writtenValues]
        exact hv

/-- C9: in any interleaved concurrent history on one atomic cell, every load
observes either the initial value or a value passed to some previous store or swap
— never a torn or partial value — and every operation completes in one
indivisible step (one output per operation). -/
theorem atomic_no_torn_reads (init : ℕ) (ops : List AtomicOp) (i v : ℕ)
    (h : (atomicOutputs init ops)[i]? = some (some v)) :
    (v = init ∨ v ∈ writtenValues (ops.take i))
    ∧ (atomicOutputs init ops).length = ops.length :=
  ⟨atomicOutputs_sound v ops init i h, atomicOutputs_length init ops⟩

/-- Witness for C9: after storing 3, a load observes 3, a previously written
value. -/
theorem atomic_no_torn_reads_witness :
    ((3 : ℕ) = 7 ∨ 3 ∈ writtenValues ([AtomicOp.store 3, AtomicOp.load].take 1))
    ∧ (atomicOutputs 7 [AtomicOp.store 3, AtomicOp.load]).length
        = [AtomicOp.store 3, AtomicOp.load].length :=
  atomic_no_torn_reads 7 [AtomicOp.store 3, AtomicOp.load] 1 3 (by decide)

end Fastant
